import Mathlib

/-!
Verification of the `git-fad` pipeline: multi-token fuzzy selection of one
unstaged/untracked file, followed by staging it.  The definitions below are a
shallow embedding of `src/main.rs` and `src/git/mod.rs`.  The external
`nucleo_matcher` fuzzy scorer is abstracted as a score oracle
(`ScoreFn`); everything the repository itself computes is embedded directly.
-/

/-- Behaviour of the external fuzzy matcher: for a query token and a haystack
path, `none` when the token does not match the path, `some s` for a match with
score `s`.  (`nucleo_matcher` is an external crate, so it is a parameter.) -/
abbrev ScoreFn := String → String → Option Nat

/-- Embedding of `pattern.match_list(&hay_refs, &mut matcher)` in `main.rs`:
the sub-list of haystack entries the token matches, paired with their scores.
(The Rust call returns them sorted by score; order is irrelevant because the
caller only inserts the pairs into a `HashMap`.) -/
def matchList (score : ScoreFn) (tok : String) (hay : List String) :
    List (String × Nat) :=
  hay.filterMap (fun p => (score tok p).map (fun s => (p, s)))

/-- Lookup in an association-list model of the Rust `HashMap<&str, u32>`. -/
def lookupScore (m : List (String × Nat)) (p : String) : Option Nat :=
  (m.find? (fun e => e.1 = p)).map (·.2)

/-- Embedding of the `cumulative.retain(...)` step in `main.rs` (lines
173-180): keep only keys also present in this token's map and add the two
scores. -/
def intersectAdd (cum tm : List (String × Nat)) : List (String × Nat) :=
  cum.filterMap (fun e => (lookupScore tm e.1).map (fun s => (e.1, e.2 + s)))

/-- The cumulative map after the aggregation loop of `main.rs` has processed
all tokens, ignoring the early returns (which only short-circuit states that
are already empty and stay empty). The first token's map is taken verbatim,
every later token intersects and adds. -/
def aggregate (score : ScoreFn) (hay : List String) :
    List String → List (String × Nat)
  | [] => []
  | t :: ts =>
      ts.foldl (fun cum t2 => intersectAdd cum (matchList score t2 hay))
        (matchList score t hay)

/-- Model of Rust `Ord::cmp` on `u32`. -/
def cmpN (a b : Nat) : Ordering :=
  if a < b then .lt else if a = b then .eq else .gt

/-- Model of Rust `Ord::cmp` on `&str`: byte-wise lexicographic order, which
for UTF-8 strings coincides with lexicographic order on the code-point
sequence (`String.data`). -/
def cmpS (a b : String) : Ordering :=
  if a.data < b.data then .lt else if a = b then .eq else .gt

/-- Embedding of the comparator handed to `max_by` in `main.rs` (lines
196-204): `sa.cmp(sb).then_with(|| pb.len().cmp(&pa.len())).then_with(|| pa.cmp(pb))`.
Rust `str::len()` is the UTF-8 byte length, embedded as
`String.utf8ByteSize` (not the character count). -/
def selCmp (a b : String × Nat) : Ordering :=
  ((cmpN a.2 b.2).then (cmpN b.1.utf8ByteSize a.1.utf8ByteSize)).then
    (cmpS a.1 b.1)

/-- Embedding of Rust `Iterator::max_by`: fold keeping the current element
when it compares strictly greater, otherwise taking the new one (so the last
maximal element is kept). -/
def maxBy (cmp : α → α → Ordering) : List α → Option α
  | [] => none
  | x :: xs => some (xs.foldl (fun acc y => if cmp acc y = .gt then acc else y) x)

/-- Result of the aggregation loop over the tokens after the first: either an
early exit (a token matched nothing / the intersection became empty) or the
final cumulative map. -/
inductive LoopExit where
  | exitToken (tok : String)
  | exitAfter
  | done (cum : List (String × Nat))
deriving DecidableEq

/-- Embedding of the `for tok in &tokens` loop of `main.rs` (lines 151-186)
after the first token has seeded `cumulative`. -/
def loopRest (score : ScoreFn) (hay : List String) :
    List (String × Nat) → List String → LoopExit
  | cum, [] => .done cum
  | cum, t :: ts =>
      let tm := matchList score t hay
      if tm = [] then .exitToken t
      else
        let cum2 := intersectAdd cum tm
        if cum2 = [] then .exitAfter
        else loopRest score hay cum2 ts

/-- Error outcomes of the staging collaborator (`stage_paths_libgit2`). -/
inductive StageError where
  | pathOutside
  | addFailed
  | writeFailed
deriving DecidableEq

/-- Observable outcome of one run of `main` (each constructor corresponds to
one `return`/`?` path of `main.rs`).  All constructors except `stageFailed`
are success exits (`Ok(())`). -/
inductive Outcome where
  | usage
  | noCandidates
  | noMatchToken (tok : String)
  | noMatchAfter
  | noMatchFinal
  | staged (path : String) (sc : Nat)
  | stageFailed (e : StageError)
deriving DecidableEq

/-- Embedding of `main` in `main.rs`, with the candidate paths `hay` given by
the (external) status provider and the stager given as an oracle.  The second
component records the arguments of every call to the stager, in order. -/
def runMainC (score : ScoreFn) (stager : String → Except StageError Unit)
    (tokens hay : List String) : Outcome × List String :=
  match tokens with
  | [] => (.usage, [])
  | t :: ts =>
      if hay = [] then (.noCandidates, [])
      else
        let tm := matchList score t hay
        if tm = [] then (.noMatchToken t, [])
        else
          match loopRest score hay tm ts with
          | .exitToken tok => (.noMatchToken tok, [])
          | .exitAfter => (.noMatchAfter, [])
          | .done c =>
              if c = [] then (.noMatchFinal, [])
              else
                match maxBy selCmp c with
                | none => (.noMatchFinal, [])
                | some (p, s) =>
                    match stager p with
                    | .ok _ => (.staged p s, [p])
                    | .error e => (.stageFailed e, [p])

/-- The outcome of one run of `main`. -/
def runMain (score : ScoreFn) (stager : String → Except StageError Unit)
    (tokens hay : List String) : Outcome :=
  (runMainC score stager tokens hay).1

/-- The no-match outcomes (informational messages, success exit). -/
def Outcome.isNoMatch : Outcome → Bool
  | .noMatchToken _ => true
  | .noMatchAfter => true
  | .noMatchFinal => true
  | _ => false

/-- Whether the process exits with an error (`main` returns `Err`). -/
def Outcome.isError : Outcome → Bool
  | .stageFailed _ => true
  | _ => false

/-- Embedding of the `index_map` built in `main.rs` (lines 217-222): a
`HashMap` from haystack string to index, inserted in order, so a repeated
string maps to its last index.  `indexLookupFrom b l p` is lookup of `p` in
the map built from `l` with indices starting at `b`. -/
def indexLookupFrom (base : Nat) : List String → String → Option Nat
  | [], _ => none
  | s :: rest, p =>
      match indexLookupFrom (base + 1) rest p with
      | some i => some i
      | none => if s = p then some base else none

/-- Lookup of a path in the `index_map` of `main.rs`. -/
def indexLookup (hay : List String) (p : String) : Option Nat :=
  indexLookupFrom 0 hay p

/-!
Glob token matching.  `src/main.rs` parses every token with the fuzzy
`Pattern::parse`; the glob branch of the Token Matcher described in §4.1 of
the design is part of the repository's experimental variants that are not in
`src/`, so it is modelled from the spec below.
-/

/-- Modelled from the spec: one entry of a `[...]` character class — a single
character or an inclusive range. -/
inductive ClsItem where
  | single (c : Char)
  | range (lo hi : Char)
deriving DecidableEq

/-- Modelled from the spec: one compiled element of a shell-style glob
pattern: a literal character, `*`, `?`, or a (possibly negated) character
class. -/
inductive GlobPart where
  | lit (c : Char)
  | star
  | qmark
  | cls (neg : Bool) (items : List ClsItem)
deriving DecidableEq

/-- Modelled from the spec: parse the body of a `[...]` class up to the
closing `]`, returning the items and the remaining input.  `none` when the
class is unterminated (a malformed pattern). -/
def parseItems : List Char → Option (List ClsItem × List Char)
  | [] => none
  | ']' :: rest => some ([], rest)
  | a :: '-' :: b :: rest =>
      if b = ']' then some ([.single a, .single '-'], rest)
      else (parseItems rest).map (fun r => (.range a b :: r.1, r.2))
  | a :: rest => (parseItems rest).map (fun r => (.single a :: r.1, r.2))

/-- Modelled from the spec: parse a class body, with an optional leading `!`
negation marker. -/
def parseCls : List Char → Option (Bool × List ClsItem × List Char)
  | '!' :: rest => (parseItems rest).map (fun r => (true, r.1, r.2))
  | cs => (parseItems cs).map (fun r => (false, r.1, r.2))

/-- Modelled from the spec: fuelled glob-pattern parser (the fuel is only a
termination device; `parseGlob` supplies more fuel than the input length, and
every step consumes at least one input character). -/
def parseGlobF : Nat → List Char → Option (List GlobPart)
  | _, [] => some []
  | 0, _ :: _ => none
  | f + 1, '*' :: rest => (parseGlobF f rest).map (.star :: ·)
  | f + 1, '?' :: rest => (parseGlobF f rest).map (.qmark :: ·)
  | f + 1, '[' :: rest =>
      match parseCls rest with
      | none => none
      | some (neg, items, rest2) =>
          (parseGlobF f rest2).map (.cls neg items :: ·)
  | f + 1, c :: rest => (parseGlobF f rest).map (.lit c :: ·)

/-- Modelled from the spec: compile a glob token; `none` on a malformed
pattern (e.g. an unterminated character class). -/
def parseGlob (s : String) : Option (List GlobPart) :=
  parseGlobF (s.data.length + 1) s.data

/-- Modelled from the spec: does character `x` satisfy a (possibly negated)
character class? -/
def matchCls (neg : Bool) (items : List ClsItem) (x : Char) : Bool :=
  let hit := items.any (fun it =>
    match it with
    | .single c => x == c
    | .range lo hi => decide (lo ≤ x) && decide (x ≤ hi))
  if neg then !hit else hit

/-- Modelled from the spec: fuelled glob matcher, anchored at both ends of
the path (the whole path must be consumed).  The fuel is a termination
device; `globMatch` supplies more than `parts + chars`, and every step
shrinks that sum. -/
def globMatchF : Nat → List GlobPart → List Char → Bool
  | 0, _, _ => false
  | _ + 1, [], cs => cs.isEmpty
  | f + 1, .star :: ps, cs =>
      globMatchF f ps cs ||
        (match cs with
         | [] => false
         | _ :: cs2 => globMatchF f (.star :: ps) cs2)
  | f + 1, .qmark :: ps, cs =>
      match cs with
      | [] => false
      | _ :: cs2 => globMatchF f ps cs2
  | f + 1, .lit c :: ps, cs =>
      match cs with
      | [] => false
      | x :: cs2 => x == c && globMatchF f ps cs2
  | f + 1, .cls neg items :: ps, cs =>
      match cs with
      | [] => false
      | x :: cs2 => matchCls neg items x && globMatchF f ps cs2

/-- Modelled from the spec: full-path anchored glob match. -/
def globMatch (ps : List GlobPart) (cs : List Char) : Bool :=
  globMatchF (ps.length + cs.length + 1) ps cs

/-- Modelled from the spec: a token is a glob token when it contains a
wildcard metacharacter. -/
def hasWildcard (tok : String) : Bool :=
  tok.data.any (fun c => c == '*' || c == '?' || c == '[')

/-- Modelled from the spec: the glob branch of the Token Matcher — every
candidate whose full path matches the compiled pattern receives the fixed
score 1; non-matching candidates are absent; a malformed pattern yields the
empty map. -/
def matchTokenGlob (tok : String) (hay : List String) : List (String × Nat) :=
  match parseGlob tok with
  | none => []
  | some ps => hay.filterMap (fun p => if globMatch ps p.data then some (p, 1) else none)

/-- Modelled from the spec: `match_token` of §4.1 — a token containing a glob
wildcard is matched as a glob, any other token by the fuzzy matcher. -/
def match_token (score : ScoreFn) (tok : String) (hay : List String) :
    List (String × Nat) :=
  if hasWildcard tok then matchTokenGlob tok hay else matchList score tok hay

/-!
The staging collaborator, `stage_paths_libgit2` (identical in `src/main.rs`
lines 23-51 and `src/git/mod.rs` lines 62-90).  Paths are modelled as lists
of components with the Unix root directory as a distinguished first
component, mirroring `std::path::Path::components`.
-/

/-- One component of a `std::path::Path` (root directory or a normal
component). -/
inductive Component where
  | rootDir
  | normal (s : String)
deriving DecidableEq, BEq

/-- A path, as its component list (`Path::components`). -/
abbrev RsPath := List Component

/-- Embedding of `Path::is_absolute` (Unix: the path starts with the root
directory). -/
def isAbsolute (p : RsPath) : Bool :=
  match p with
  | .rootDir :: _ => true
  | _ => false

/-- Embedding of `Path::strip_prefix`: succeeds exactly when `base`'s
components are a prefix of `p`'s, returning the remaining components. -/
def stripPrefixRs (base p : RsPath) : Option RsPath :=
  if base.isPrefixOf p then some (p.drop base.length) else none

/-- Embedding of the per-path step of `stage_paths_libgit2`: an absolute path
is stripped of the repository root (error if it lies outside), a relative
path is used as is. -/
def relOf (repoPath p : RsPath) : Except StageError RsPath :=
  if isAbsolute p then
    match stripPrefixRs repoPath p with
    | some r => .ok r
    | none => .error .pathOutside
  else .ok p

/-- Embedding of the `for p in paths` loop of `stage_paths_libgit2`:
resolve each path and add it to the index (`addOk` models whether libgit2's
`index.add_path` succeeds on the resolved relative path); the first failure
aborts.  Returns the list of relative paths added. -/
def addAll (repoPath : RsPath) (addOk : RsPath → Bool) :
    List RsPath → Except StageError (List RsPath)
  | [] => .ok []
  | p :: ps =>
      match relOf repoPath p with
      | .error e => .error e
      | .ok rel =>
          if addOk rel then (addAll repoPath addOk ps).map (rel :: ·)
          else .error .addFailed

/-- Embedding of `stage_paths_libgit2`: run the add loop, then write the
index once (`writeOk` models whether `index.write()` succeeds).  The second
component records whether `index.write()` was invoked at all. -/
def stage_paths_libgit2 (repoPath : RsPath) (addOk : RsPath → Bool)
    (writeOk : Bool) (paths : List RsPath) :
    Except StageError (List RsPath) × Bool :=
  match addAll repoPath addOk paths with
  | .error e => (.error e, false)
  | .ok rels => if writeOk then (.ok rels, true) else (.error .writeFailed, true)

/-!
The candidate source, `collect_unstaged_and_untracked` (`src/main.rs` lines
57-95).
-/

/-- The git status flags relevant to the embedding (one collected status may
carry several). -/
inductive GitStatusFlag where
  | wtNew
  | wtModified
  | wtDeleted
  | wtTypechange
  | wtRenamed
  | indexNew
  | indexModified
  | indexDeleted
deriving DecidableEq

/-- The working-tree flag set tested by `s.intersects(WT_NEW | WT_MODIFIED |
WT_DELETED | WT_TYPECHANGE | WT_RENAMED)`. -/
def wtFlags : List GitStatusFlag :=
  [.wtNew, .wtModified, .wtDeleted, .wtTypechange, .wtRenamed]

/-- Embedding of the `FileMode` enum of the source. -/
inductive FileMode where
  | regular
  | executable
  | symlink
  | submodule
  | other (m : Nat)
deriving DecidableEq

/-- Embedding of one `git2::StatusEntry`: its status flag set, its path
(`entry.path()` is `None` when the path cannot be represented as UTF-8), and
the actual on-disk mode of the entry — which the source never reads. -/
structure StatusEntry where
  status : List GitStatusFlag
  path : Option String
  diskMode : FileMode
deriving DecidableEq

/-- Embedding of the `FileEntry` struct of the source. -/
structure FileEntry where
  path : String
  mode : FileMode
deriving DecidableEq

/-- Embedding of `collect_unstaged_and_untracked`: keep entries whose status
intersects the working-tree flags and whose path is representable; every
produced entry is given `FileMode::Regular`. -/
def collect_unstaged_and_untracked (entries : List StatusEntry) :
    List FileEntry :=
  entries.filterMap (fun e =>
    if e.status.any (fun f => decide (f ∈ wtFlags)) then
      match e.path with
      | some p => some { path := p, mode := FileMode.regular }
      | none => none
    else none)

/-!
Lemmas about the score-map operations.
-/

/-- Adding two optional scores: present only when both are. -/
def optAdd (a b : Option Nat) : Option Nat :=
  match a, b with
  | some x, some y => some (x + y)
  | _, _ => none

theorem lookupScore_nil (p : String) : lookupScore [] p = none := rfl

theorem lookupScore_cons (e : String × Nat) (m : List (String × Nat)) (p : String) :
    lookupScore (e :: m) p = if e.1 = p then some e.2 else lookupScore m p := by
  by_cases h : e.1 = p <;> simp [lookupScore, List.find?_cons, h]

theorem lookupScore_matchList (score : ScoreFn) (t p : String) (hay : List String) :
    lookupScore (matchList score t hay) p = if p ∈ hay then score t p else none := by
  induction hay with
  | nil => simp [matchList, lookupScore]
  | cons h rest ih =>
      cases hs : score t h with
      | none =>
          have hstep : matchList score t (h :: rest) = matchList score t rest := by
            simp [matchList, List.filterMap_cons, hs]
          rw [hstep, ih]
          by_cases hp : p = h
          · subst hp
            by_cases hm : p ∈ rest <;> simp [hm, hs]
          · simp [List.mem_cons, hp]
      | some s =>
          have hstep : matchList score t (h :: rest) = (h, s) :: matchList score t rest := by
            simp [matchList, List.filterMap_cons, hs]
          rw [hstep, lookupScore_cons]
          by_cases hp : h = p
          · subst hp
            simp [hs]
          · simp only [hp, if_false]
            rw [ih]
            have hph : ¬p = h := fun h' => hp h'.symm
            simp [List.mem_cons, hph]

theorem lookupScore_intersectAdd (cum tm : List (String × Nat)) (p : String) :
    lookupScore (intersectAdd cum tm) p =
      optAdd (lookupScore cum p) (lookupScore tm p) := by
  induction cum with
  | nil => simp [intersectAdd, lookupScore, optAdd]
  | cons e rest ih =>
      cases ht : lookupScore tm e.1 with
      | none =>
          simp only [intersectAdd, List.filterMap_cons, ht, Option.map_none'] at ih ⊢
          rw [ih, lookupScore_cons]
          by_cases hp : e.1 = p
          · subst hp
            cases hc : lookupScore rest e.1 <;> simp [optAdd, ht]
          · simp [hp]
      | some s =>
          simp only [intersectAdd, List.filterMap_cons, ht, Option.map_some'] at ih ⊢
          rw [lookupScore_cons, lookupScore_cons]
          by_cases hp : e.1 = p
          · subst hp
            simp [optAdd, ht]
          · simp [hp, ih]

theorem optAdd_none_left (b : Option Nat) : optAdd none b = none := by
  cases b <;> rfl

theorem foldl_optAdd_none (g : String → Option Nat) (ts : List String) :
    ts.foldl (fun acc t => optAdd acc (g t)) none = none := by
  induction ts with
  | nil => rfl
  | cons t ts ih => simpa [optAdd_none_left] using ih

theorem foldl_optAdd_some (g : String → Option Nat) (ts : List String) (a0 : Nat) :
    ts.foldl (fun acc t => optAdd acc (g t)) (some a0) =
      if ∀ t ∈ ts, (g t).isSome
      then some (a0 + (ts.map (fun t => (g t).getD 0)).sum)
      else none := by
  induction ts generalizing a0 with
  | nil => simp
  | cons t ts ih =>
      cases hg : g t with
      | none =>
          rw [List.foldl_cons]
          have h1 : optAdd (some a0) (g t) = none := by simp [optAdd, hg]
          rw [h1, foldl_optAdd_none]
          simp [List.forall_mem_cons, hg]
      | some b =>
          rw [List.foldl_cons]
          have h1 : optAdd (some a0) (g t) = some (a0 + b) := by simp [optAdd, hg]
          rw [h1, ih]
          by_cases hall : ∀ u ∈ ts, (g u).isSome
          · simp [hall, List.forall_mem_cons, hg, Nat.add_assoc]
          · simp [hall, List.forall_mem_cons, hg]

theorem lookupScore_aggFold (score : ScoreFn) (hay : List String) (p : String)
    (ts : List String) (cum : List (String × Nat)) :
    lookupScore
        (ts.foldl (fun c t2 => intersectAdd c (matchList score t2 hay)) cum) p =
      ts.foldl (fun acc t => optAdd acc (lookupScore (matchList score t hay) p))
        (lookupScore cum p) := by
  induction ts generalizing cum with
  | nil => rfl
  | cons t ts ih =>
      rw [List.foldl_cons, List.foldl_cons, ih, lookupScore_intersectAdd]

theorem aggregate_cons (score : ScoreFn) (hay : List String) (t : String)
    (ts : List String) :
    aggregate score hay (t :: ts) =
      ts.foldl (fun c t2 => intersectAdd c (matchList score t2 hay))
        (matchList score t hay) := rfl

/-- The central characterization of the aggregation loop: a key is present in
the final cumulative map iff it is a candidate and every token matched it,
and its value is the sum of the per-token scores. -/
theorem lookupScore_aggregate (score : ScoreFn) (hay : List String)
    (t : String) (ts : List String) (p : String) :
    lookupScore (aggregate score hay (t :: ts)) p =
      if p ∈ hay ∧ ∀ u ∈ t :: ts, (score u p).isSome
      then some (((t :: ts).map (fun u => (score u p).getD 0)).sum)
      else none := by
  rw [aggregate_cons, lookupScore_aggFold, lookupScore_matchList]
  by_cases hm : p ∈ hay
  · rw [if_pos hm]
    cases hs : score t p with
    | none =>
        rw [foldl_optAdd_none]
        simp [List.forall_mem_cons, hs]
    | some a0 =>
        rw [foldl_optAdd_some]
        simp only [lookupScore_matchList, hm, if_true]
        by_cases hall : ∀ u ∈ ts, (score u p).isSome
        · simp [hall, List.forall_mem_cons, hs]
        · simp [hall, List.forall_mem_cons, hs]
  · rw [if_neg hm, foldl_optAdd_none]
    simp [hm]

theorem lookupScore_isSome_iff (m : List (String × Nat)) (p : String) :
    (∃ v, lookupScore m p = some v) ↔ ∃ s, (p, s) ∈ m := by
  induction m with
  | nil => simp [lookupScore_nil]
  | cons e rest ih =>
      rw [lookupScore_cons]
      by_cases hp : e.1 = p
      · rw [if_pos hp]
        constructor
        · intro _
          refine ⟨e.2, ?_⟩
          have he : (p, e.2) = e := by
            cases e with
            | mk a b => cases hp; rfl
          rw [he]
          exact List.mem_cons_self _ _
        · intro _
          exact ⟨e.2, rfl⟩
      · rw [if_neg hp, ih]
        constructor
        · rintro ⟨s, hs⟩
          exact ⟨s, List.mem_cons_of_mem _ hs⟩
        · rintro ⟨s, hs⟩
          rcases List.mem_cons.mp hs with h | h
          · exact absurd (congrArg Prod.fst h.symm) hp
          · exact ⟨s, h⟩

/-- C2: after the aggregator has processed token `i`, a key is present in the
cumulative map iff every token `0..=i` matched that candidate, and its value
is the sum of that candidate's per-token scores over exactly those tokens. -/
theorem C2_cumulative_invariant (score : ScoreFn) (hay tokens : List String)
    (i : Nat) (hi : i < tokens.length) (p : String) :
    ((∃ v, lookupScore (aggregate score hay (tokens.take (i + 1))) p = some v)
       ↔ p ∈ hay ∧ ∀ u ∈ tokens.take (i + 1), (score u p).isSome)
    ∧ ∀ v, lookupScore (aggregate score hay (tokens.take (i + 1))) p = some v →
        v = ((tokens.take (i + 1)).map (fun u => (score u p).getD 0)).sum := by
  obtain ⟨t, ts, htake⟩ : ∃ t ts, tokens.take (i + 1) = t :: ts := by
    cases tokens with
    | nil => exact absurd hi (by simp)
    | cons t ts => exact ⟨t, ts.take i, by simp⟩
  rw [htake, lookupScore_aggregate]
  constructor
  · by_cases hc : p ∈ hay ∧ ∀ u ∈ t :: ts, (score u p).isSome
    · simp [hc]
    · simp [hc]
  · intro v hv
    by_cases hc : p ∈ hay ∧ ∀ u ∈ t :: ts, (score u p).isSome
    · rw [if_pos hc] at hv
      exact (Option.some_inj.mp hv).symm
    · rw [if_neg hc] at hv
      cases hv

theorem C2_cumulative_invariant_witness :
    (1 < (["x", "y"] : List String).length)
    ∧ (((∃ v, lookupScore
          (aggregate (fun _ p => if p = "a" then some 1 else none) ["a", "b"]
            ((["x", "y"] : List String).take (1 + 1))) "a" = some v)
        ↔ "a" ∈ (["a", "b"] : List String)
            ∧ ∀ u ∈ (["x", "y"] : List String).take (1 + 1),
                ((fun (_ : String) (p : String) =>
                    if p = "a" then some 1 else none) u "a").isSome)
      ∧ ∀ v, lookupScore
          (aggregate (fun _ p => if p = "a" then some 1 else none) ["a", "b"]
            ((["x", "y"] : List String).take (1 + 1))) "a" = some v →
          v = (((["x", "y"] : List String).take (1 + 1)).map
                (fun u => ((fun (_ : String) (p : String) =>
                    if p = "a" then some 1 else none) u "a").getD 0)).sum) :=
  ⟨by decide,
   C2_cumulative_invariant (fun _ p => if p = "a" then some 1 else none)
     ["a", "b"] ["x", "y"] 1 (by decide) "a"⟩

/-- C4: permuting the tokens changes neither the final cumulative key set nor
any surviving candidate's aggregate score. -/
theorem C4_token_order (score : ScoreFn) (hay : List String)
    (ts1 ts2 : List String) (hperm : ts1.Perm ts2) :
    (∀ p, lookupScore (aggregate score hay ts1) p =
        lookupScore (aggregate score hay ts2) p)
    ∧ ∀ p, ((∃ s, (p, s) ∈ aggregate score hay ts1)
        ↔ ∃ s, (p, s) ∈ aggregate score hay ts2) := by
  have hmain : ∀ p, lookupScore (aggregate score hay ts1) p =
      lookupScore (aggregate score hay ts2) p := by
    intro p
    cases h1 : ts1 with
    | nil =>
        have h2 : ts2 = [] := (h1 ▸ hperm).symm.eq_nil
        rw [h2]
    | cons t ts =>
        cases h2 : ts2 with
        | nil =>
            exact absurd ((h2 ▸ h1 ▸ hperm).eq_nil) (by simp)
        | cons u us =>
            have hp : (t :: ts).Perm (u :: us) := h2 ▸ h1 ▸ hperm
            rw [lookupScore_aggregate, lookupScore_aggregate]
            have hcond : (p ∈ hay ∧ ∀ v ∈ t :: ts, (score v p).isSome)
                ↔ (p ∈ hay ∧ ∀ v ∈ u :: us, (score v p).isSome) := by
              constructor
              · rintro ⟨ha, hb⟩
                exact ⟨ha, fun v hv => hb v (hp.mem_iff.mpr hv)⟩
              · rintro ⟨ha, hb⟩
                exact ⟨ha, fun v hv => hb v (hp.mem_iff.mp hv)⟩
            have hsum : ((t :: ts).map (fun v => (score v p).getD 0)).sum
                = ((u :: us).map (fun v => (score v p).getD 0)).sum :=
              (hp.map (fun v => (score v p).getD 0)).sum_eq
            by_cases hc : p ∈ hay ∧ ∀ v ∈ t :: ts, (score v p).isSome
            · rw [if_pos hc, if_pos (hcond.mp hc), hsum]
            · rw [if_neg hc, if_neg (fun h => hc (hcond.mpr h))]
  refine ⟨hmain, fun p => ?_⟩
  rw [← lookupScore_isSome_iff, ← lookupScore_isSome_iff, hmain p]

theorem C4_token_order_witness :
    (["x", "y"] : List String).Perm ["y", "x"]
    ∧ ((∀ p, lookupScore
          (aggregate (fun t p => if t = p then some 2 else some 1)
            ["x", "z"] ["x", "y"]) p =
        lookupScore
          (aggregate (fun t p => if t = p then some 2 else some 1)
            ["x", "z"] ["y", "x"]) p)
      ∧ ∀ p, ((∃ s, (p, s) ∈ aggregate
            (fun t p => if t = p then some 2 else some 1) ["x", "z"] ["x", "y"])
          ↔ ∃ s, (p, s) ∈ aggregate
            (fun t p => if t = p then some 2 else some 1) ["x", "z"] ["y", "x"])) :=
  ⟨by decide,
   C4_token_order (fun t p => if t = p then some 2 else some 1)
     ["x", "z"] ["x", "y"] ["y", "x"] (by decide)⟩

theorem intersectAdd_nil_left (tm : List (String × Nat)) :
    intersectAdd [] tm = [] := rfl

theorem intersectAdd_nil_right (cum : List (String × Nat)) :
    intersectAdd cum [] = [] := by
  simp [intersectAdd, lookupScore]

theorem aggFold_nil (score : ScoreFn) (hay : List String) (ts : List String) :
    ts.foldl (fun c t2 => intersectAdd c (matchList score t2 hay)) [] = [] := by
  induction ts with
  | nil => rfl
  | cons t ts ih =>
      rw [List.foldl_cons, intersectAdd_nil_left]
      exact ih

/-- Projection of the loop result onto the final cumulative map. -/
def loopView : LoopExit → Option (List (String × Nat))
  | .done c => some c
  | _ => none

theorem loopRest_view (score : ScoreFn) (hay : List String) (ts : List String) :
    ∀ cum, cum ≠ [] →
      loopView (loopRest score hay cum ts) =
        if ts.foldl (fun c t2 => intersectAdd c (matchList score t2 hay)) cum = []
        then none
        else some (ts.foldl (fun c t2 => intersectAdd c (matchList score t2 hay)) cum) := by
  induction ts with
  | nil =>
      intro cum hne
      simp [loopRest, loopView, hne]
  | cons t ts ih =>
      intro cum hne
      rw [List.foldl_cons]
      by_cases htm : matchList score t hay = []
      · have hstep : loopRest score hay cum (t :: ts) = .exitToken t := by
          simp [loopRest, htm]
        rw [hstep, htm, intersectAdd_nil_right, aggFold_nil]
        simp [loopView]
      · by_cases hc2 : intersectAdd cum (matchList score t hay) = []
        · have hstep : loopRest score hay cum (t :: ts) = .exitAfter := by
            simp [loopRest, htm, hc2]
          rw [hstep, hc2, aggFold_nil]
          simp [loopView]
        · have hstep : loopRest score hay cum (t :: ts) =
              loopRest score hay (intersectAdd cum (matchList score t hay)) ts := by
            simp [loopRest, htm, hc2]
          rw [hstep, ih _ hc2]

theorem maxBy_isSome (cmp : α → α → Ordering) (l : List α) (h : l ≠ []) :
    ∃ w, maxBy cmp l = some w := by
  cases l with
  | nil => exact absurd rfl h
  | cons x xs => exact ⟨_, rfl⟩

theorem foldl_max_choice (cmp : α → α → Ordering) (xs : List α) :
    ∀ acc, xs.foldl (fun a y => if cmp a y = .gt then a else y) acc = acc
      ∨ xs.foldl (fun a y => if cmp a y = .gt then a else y) acc ∈ xs := by
  induction xs with
  | nil => intro acc; left; rfl
  | cons y ys ih =>
      intro acc
      rw [List.foldl_cons]
      by_cases hcmp : cmp acc y = .gt
      · rw [if_pos hcmp]
        rcases ih acc with h | h
        · left; exact h
        · right; exact List.mem_cons_of_mem _ h
      · rw [if_neg hcmp]
        rcases ih y with h | h
        · right; rw [h]; exact List.mem_cons_self _ _
        · right; exact List.mem_cons_of_mem _ h

theorem maxBy_mem (cmp : α → α → Ordering) (l : List α) (w : α)
    (h : maxBy cmp l = some w) : w ∈ l := by
  cases l with
  | nil => cases h
  | cons x xs =>
      have hw : xs.foldl (fun a y => if cmp a y = .gt then a else y) x = w :=
        Option.some_inj.mp h
      rcases foldl_max_choice cmp xs x with h1 | h1
    
      · rw [← hw, h1]; exact List.mem_cons_self _ _
      · rw [← hw]; exact List.mem_cons_of_mem _ h1

theorem runMainC_agg_nil (score : ScoreFn) (stager : String → Except StageError Unit)
    (t : String) (ts hay : List String) (hhay : hay ≠ [])
    (hagg : aggregate score hay (t :: ts) = []) :
    (runMainC score stager (t :: ts) hay).1.isNoMatch = true
    ∧ (runMainC score stager (t :: ts) hay).2 = [] := by
  by_cases htm : matchList score t hay = []
  · have hrun : runMainC score stager (t :: ts) hay = (.noMatchToken t, []) := by
      simp [runMainC, hhay, htm]
    rw [hrun]
    exact ⟨rfl, rfl⟩
  · have hview := loopRest_view score hay ts (matchList score t hay) htm
    rw [← aggregate_cons, hagg] at hview
    rw [if_pos rfl] at hview
    cases hl : loopRest score hay (matchList score t hay) ts with
    | done c =>
        rw [hl] at hview
        simp [loopView] at hview
    | exitToken tok =>
        have hrun : runMainC score stager (t :: ts) hay = (.noMatchToken tok, []) := by
          simp [runMainC, hhay, htm, hl]
        rw [hrun]
        exact ⟨rfl, rfl⟩
    | exitAfter =>
        have hrun : runMainC score stager (t :: ts) hay = (.noMatchAfter, []) := by
          simp [runMainC, hhay, htm, hl]
        rw [hrun]
        exact ⟨rfl, rfl⟩

theorem runMainC_agg_ne_nil (score : ScoreFn)
    (stager : String → Except StageError Unit)
    (t : String) (ts hay : List String) (hhay : hay ≠ [])
    (hagg : aggregate score hay (t :: ts) ≠ []) :
    ∃ p s, maxBy selCmp (aggregate score hay (t :: ts)) = some (p, s)
      ∧ (runMainC score stager (t :: ts) hay).2 = [p]
      ∧ ((stager p = .ok () ∧ (runMainC score stager (t :: ts) hay).1 = .staged p s)
         ∨ ∃ e, stager p = .error e
             ∧ (runMainC score stager (t :: ts) hay).1 = .stageFailed e) := by
  have htm : matchList score t hay ≠ [] := by
    intro h
    apply hagg
    rw [aggregate_cons, h, aggFold_nil]
  have hview := loopRest_view score hay ts (matchList score t hay) htm
  rw [← aggregate_cons, if_neg hagg] at hview
  cases hl : loopRest score hay (matchList score t hay) ts with
  | exitToken tok =>
      rw [hl] at hview
      simp [loopView] at hview
  | exitAfter =>
      rw [hl] at hview
      simp [loopView] at hview
  | done c =>
      rw [hl] at hview
      simp only [loopView, Option.some_inj] at hview
      obtain ⟨w, hw⟩ := maxBy_isSome selCmp c (by rw [hview]; exact hagg)
      obtain ⟨p, s⟩ := w
      refine ⟨p, s, by rw [← hview]; exact hw, ?_⟩
      cases hst : stager p with
      | ok u =>
          cases u
          have hrun : runMainC score stager (t :: ts) hay = (.staged p s, [p]) := by
            simp [runMainC, hhay, htm, hl, hview ▸ hagg, hw, hst]
          rw [hrun]
          exact ⟨rfl, Or.inl ⟨rfl, rfl⟩⟩
      | error e =>
          have hrun : runMainC score stager (t :: ts) hay = (.stageFailed e, [p]) := by
            simp [runMainC, hhay, htm, hl, hview ▸ hagg, hw, hst]
          rw [hrun]
          exact ⟨rfl, Or.inr ⟨e, rfl, rfl⟩⟩

theorem isNoMatch_isError (o : Outcome) (h : o.isNoMatch = true) :
    o.isError = false := by
  cases o <;> simp_all [Outcome.isNoMatch, Outcome.isError]

theorem eq_nil_of_lookupScore_none (m : List (String × Nat))
    (h : ∀ p, lookupScore m p = none) : m = [] := by
  cases m with
  | nil => rfl
  | cons e rest =>
      have he := h e.1
      rw [lookupScore_cons, if_pos rfl] at he
      cases he

theorem matchList_nil_score (score : ScoreFn) (u : String) (hay : List String)
    (h : matchList score u hay = []) (p : String) (hp : p ∈ hay) :
    score u p = none := by
  have hm := lookupScore_matchList score u p hay
  rw [h, lookupScore_nil, if_pos hp] at hm
  exact hm.symm

theorem aggregate_nil_of_token_nil (score : ScoreFn) (hay : List String)
    (t : String) (ts : List String) (u : String) (hu : u ∈ t :: ts)
    (h : matchList score u hay = []) :
    aggregate score hay (t :: ts) = [] := by
  apply eq_nil_of_lookupScore_none
  intro p
  rw [lookupScore_aggregate]
  by_cases hm : p ∈ hay
  · rw [if_neg]
    rintro ⟨-, hall⟩
    have hs := hall u hu
    rw [matchList_nil_score score u hay h p hm] at hs
    cases hs
  · rw [if_neg]
    rintro ⟨hmem, -⟩
    exact hm hmem

theorem aggregate_append_nil (score : ScoreFn) (hay : List String)
    (t : String) (ts more : List String)
    (h : aggregate score hay (t :: ts) = []) :
    aggregate score hay ((t :: ts) ++ more) = [] := by
  show aggregate score hay (t :: (ts ++ more)) = []
  rw [aggregate_cons, List.foldl_append, ← aggregate_cons, h, aggFold_nil]

/-- C5: as soon as one token's match map is empty, or one intersection step
empties the cumulative map, the run ends in the no-match outcome (an
informational message and a success exit, never an error, with no staging
call), and appending further tokens cannot change the outcome away from
no-match. -/
theorem C5_no_match (score : ScoreFn) (stager : String → Except StageError Unit)
    (tokens hay : List String) (hhay : hay ≠ [])
    (h : (∃ u ∈ tokens, matchList score u hay = [])
         ∨ ∃ i, i < tokens.length
             ∧ aggregate score hay (tokens.take (i + 1)) = []) :
    (runMain score stager tokens hay).isNoMatch = true
    ∧ (runMainC score stager tokens hay).2 = []
    ∧ (runMain score stager tokens hay).isError = false
    ∧ ∀ more, (runMain score stager (tokens ++ more) hay).isNoMatch = true
        ∧ (runMain score stager (tokens ++ more) hay).isError = false := by
  cases tokens with
  | nil =>
      rcases h with ⟨u, hu, -⟩ | ⟨i, hi, -⟩
      · simp at hu
      · simp at hi
  | cons t ts =>
      have hagg : aggregate score hay (t :: ts) = [] := by
        rcases h with ⟨u, hu, hun⟩ | ⟨i, -, hia⟩
        · exact aggregate_nil_of_token_nil score hay t ts u hu hun
        · rw [List.take_succ_cons] at hia
          have hsplit : t :: ts = (t :: ts.take i) ++ ts.drop i := by
            simp [List.take_append_drop]
          rw [hsplit]
          exact aggregate_append_nil score hay t (ts.take i) (ts.drop i) hia
      have hmain := runMainC_agg_nil score stager t ts hay hhay hagg
      refine ⟨hmain.1, hmain.2, isNoMatch_isError _ hmain.1, ?_⟩
      intro more
      have hagg2 : aggregate score hay (t :: (ts ++ more)) = [] :=
        aggregate_append_nil score hay t ts more hagg
      have h2 := runMainC_agg_nil score stager t (ts ++ more) hay hhay hagg2
      exact ⟨h2.1, isNoMatch_isError _ h2.1⟩

theorem C5_no_match_witness :
    (runMain (fun _ _ => none) (fun _ => .ok ()) ["x"] ["a"]).isNoMatch = true
    ∧ (runMainC (fun _ _ => none) (fun _ => .ok ()) ["x"] ["a"]).2 = []
    ∧ (runMain (fun _ _ => none) (fun _ => .ok ()) ["x"] ["a"]).isError = false
    ∧ ∀ more,
        (runMain (fun _ _ => none) (fun _ => .ok ())
          (["x"] ++ more) ["a"]).isNoMatch = true
        ∧ (runMain (fun _ _ => none) (fun _ => .ok ())
            (["x"] ++ more) ["a"]).isError = false :=
  C5_no_match (fun _ _ => none) (fun _ => .ok ()) ["x"] ["a"] (by decide)
    (Or.inl ⟨"x", by decide, rfl⟩)

theorem runMainC_split (score : ScoreFn)
    (stager : String → Except StageError Unit) (tokens hay : List String) :
    ((runMainC score stager tokens hay).2 = []
      ∧ ((runMainC score stager tokens hay).1.isNoMatch = true
         ∨ (runMainC score stager tokens hay).1 = .usage
         ∨ (runMainC score stager tokens hay).1 = .noCandidates))
    ∨ (∃ p s, maxBy selCmp (aggregate score hay tokens) = some (p, s)
        ∧ (runMainC score stager tokens hay).2 = [p]
        ∧ ((runMainC score stager tokens hay).1 = .staged p s
           ∨ ∃ e, (runMainC score stager tokens hay).1 = .stageFailed e)) := by
  cases tokens with
  | nil => exact Or.inl ⟨rfl, Or.inr (Or.inl rfl)⟩
  | cons t ts =>
      by_cases hhay : hay = []
      · left
        have hrun : runMainC score stager (t :: ts) hay = (.noCandidates, []) := by
          simp [runMainC, hhay]
        rw [hrun]
        exact ⟨rfl, Or.inr (Or.inr rfl)⟩
      · by_cases hagg : aggregate score hay (t :: ts) = []
        · left
          have h := runMainC_agg_nil score stager t ts hay hhay hagg
          exact ⟨h.2, Or.inl h.1⟩
        · right
          obtain ⟨p, s, hmax, hcalls, hout⟩ :=
            runMainC_agg_ne_nil score stager t ts hay hhay hagg
          refine ⟨p, s, hmax, hcalls, ?_⟩
          rcases hout with ⟨-, h⟩ | ⟨e, -, h⟩
          · exact Or.inl h
          · exact Or.inr ⟨e, h⟩

/-- C6: the stager is invoked at most once per run, never on the usage,
no-candidates or no-match outcomes, and when selection succeeds the single
staged path is exactly the winner fully determined by the selector over the
final cumulative map. -/
theorem C6_staging_once (score : ScoreFn)
    (stager : String → Except StageError Unit) (tokens hay : List String) :
    (runMainC score stager tokens hay).2.length ≤ 1
    ∧ ((runMain score stager tokens hay).isNoMatch = true
        ∨ runMain score stager tokens hay = .usage
        ∨ runMain score stager tokens hay = .noCandidates →
          (runMainC score stager tokens hay).2 = [])
    ∧ (∀ p s, runMain score stager tokens hay = .staged p s →
        (runMainC score stager tokens hay).2 = [p]
        ∧ maxBy selCmp (aggregate score hay tokens) = some (p, s)) := by
  simp only [runMain]
  rcases runMainC_split score stager tokens hay with ⟨hc, ho⟩ | ⟨p, s, hmax, hc, ho⟩
  · refine ⟨by rw [hc]; simp, fun _ => hc, ?_⟩
    intro p s hst
    exfalso
    rcases ho with h | h | h <;> rw [hst] at h <;> simp [Outcome.isNoMatch] at h
  · refine ⟨by rw [hc]; simp, ?_, ?_⟩
    · intro h
      exfalso
      rcases ho with hh | ⟨e, hh⟩ <;>
        rcases h with h1 | h1 | h1 <;>
          rw [hh] at h1 <;> simp [Outcome.isNoMatch] at h1
    · intro p' s' hst
      rcases ho with hh | ⟨e, hh⟩
      · have heq : Outcome.staged p s = Outcome.staged p' s' := hh.symm.trans hst
        injection heq with h1 h2
        subst h1
        subst h2
        exact ⟨hc, hmax⟩
      · exact Outcome.noConfusion (hh.symm.trans hst)

theorem C6_staging_once_witness :
    (runMainC (fun _ p => if p = "ab" then some 5 else none) (fun _ => .ok ())
        ["t"] ["ab"]).2.length ≤ 1
    ∧ ((runMain (fun _ p => if p = "ab" then some 5 else none) (fun _ => .ok ())
          ["t"] ["ab"]).isNoMatch = true
        ∨ runMain (fun _ p => if p = "ab" then some 5 else none) (fun _ => .ok ())
            ["t"] ["ab"] = .usage
        ∨ runMain (fun _ p => if p = "ab" then some 5 else none) (fun _ => .ok ())
            ["t"] ["ab"] = .noCandidates →
          (runMainC (fun _ p => if p = "ab" then some 5 else none) (fun _ => .ok ())
            ["t"] ["ab"]).2 = [])
    ∧ (∀ p s, runMain (fun _ p => if p = "ab" then some 5 else none)
          (fun _ => .ok ()) ["t"] ["ab"] = .staged p s →
        (runMainC (fun _ p => if p = "ab" then some 5 else none) (fun _ => .ok ())
          ["t"] ["ab"]).2 = [p]
        ∧ maxBy selCmp (aggregate (fun _ p => if p = "ab" then some 5 else none)
            ["ab"] ["t"]) = some (p, s)) :=
  C6_staging_once (fun _ p => if p = "ab" then some 5 else none)
    (fun _ => .ok ()) ["t"] ["ab"]

theorem mem_intersectAdd (cum tm : List (String × Nat)) (p : String) (v : Nat)
    (h : (p, v) ∈ intersectAdd cum tm) : ∃ v2, (p, v2) ∈ cum := by
  obtain ⟨e, he, hor⟩ := List.mem_filterMap.mp h
  cases hlk : lookupScore tm e.1 with
  | none => rw [hlk] at hor; cases hor
  | some s =>
      rw [hlk] at hor
      simp only [Option.map_some', Option.some_inj, Prod.mk.injEq] at hor
      obtain ⟨h1, -⟩ := hor
      refine ⟨e.2, ?_⟩
      have he2 : (p, e.2) = e := by rw [← h1]
      rw [he2]
      exact he

theorem mem_matchList_hay (score : ScoreFn) (t : String) (hay : List String)
    (p : String) (v : Nat) (h : (p, v) ∈ matchList score t hay) : p ∈ hay := by
  obtain ⟨q, hq, hor⟩ := List.mem_filterMap.mp h
  cases hs : score t q with
  | none => rw [hs] at hor; cases hor
  | some s =>
      rw [hs] at hor
      simp only [Option.map_some', Option.some_inj, Prod.mk.injEq] at hor
      obtain ⟨h1, -⟩ := hor
      rw [← h1]
      exact hq

theorem mem_aggFold (score : ScoreFn) (hay : List String) (ts : List String) :
    ∀ cum p v,
      (p, v) ∈ ts.foldl (fun c t2 => intersectAdd c (matchList score t2 hay)) cum →
      ∃ v2, (p, v2) ∈ cum := by
  induction ts with
  | nil => exact fun cum p v h => ⟨v, h⟩
  | cons t ts ih =>
      intro cum p v h
      rw [List.foldl_cons] at h
      obtain ⟨v2, h2⟩ := ih _ p v h
      exact mem_intersectAdd _ _ p v2 h2

theorem mem_aggregate_hay (score : ScoreFn) (hay ts : List String)
    (p : String) (v : Nat) (h : (p, v) ∈ aggregate score hay ts) : p ∈ hay := by
  cases ts with
  | nil => cases h
  | cons t ts =>
      rw [aggregate_cons] at h
      obtain ⟨v2, h2⟩ := mem_aggFold score hay ts _ p v h
      exact mem_matchList_hay score t hay p v2 h2

theorem indexLookupFrom_none (p : String) (hay : List String) (h : p ∉ hay) :
    ∀ base, indexLookupFrom base hay p = none := by
  induction hay with
  | nil => intro base; rfl
  | cons s rest ih =>
      intro base
      have hs : ¬s = p := fun he => h (by rw [← he]; exact List.mem_cons_self _ _)
      have hrest : p ∉ rest := fun hm => h (List.mem_cons_of_mem _ hm)
      simp [indexLookupFrom, ih hrest, hs]

theorem indexLookupFrom_mem (p : String) (hay : List String) (hp : p ∈ hay) :
    ∀ base, ∃ j, indexLookupFrom base hay p = some (base + j)
      ∧ hay.get? j = some p := by
  induction hay with
  | nil => cases hp
  | cons s rest ih =>
      intro base
      by_cases hm : p ∈ rest
      · obtain ⟨j, hj1, hj2⟩ := ih hm (base + 1)
        refine ⟨j + 1, ?_, by simpa using hj2⟩
        simp only [indexLookupFrom, hj1]
        congr 1
        omega
      · have hs : s = p := by
          rcases List.mem_cons.mp hp with h1 | h1
          · exact h1.symm
          · exact absurd h1 hm
        refine ⟨0, ?_, by simp [hs]⟩
        simp [indexLookupFrom, indexLookupFrom_none p rest hm, hs]

/-- C9: when selection succeeds, the winning path is a key of the cumulative
map, every such key originates from the haystack, and the `index_map` lookup
that resolves the winner back to a candidate cannot fail. -/
theorem C9_winner_resolvable (score : ScoreFn)
    (stager : String → Except StageError Unit) (tokens hay : List String)
    (p : String) (s : Nat)
    (h : runMain score stager tokens hay = .staged p s) :
    p ∈ hay
    ∧ (∃ j, indexLookup hay p = some j ∧ hay.get? j = some p)
    ∧ ∀ q v, (q, v) ∈ aggregate score hay tokens → q ∈ hay := by
  have hsub : ∀ q v, (q, v) ∈ aggregate score hay tokens → q ∈ hay :=
    fun q v hm => mem_aggregate_hay score hay tokens q v hm
  simp only [runMain] at h
  rcases runMainC_split score stager tokens hay with ⟨-, ho⟩ | ⟨p', s', hmax, -, ho⟩
  · exfalso
    rcases ho with hh | hh | hh <;> rw [h] at hh <;>
      simp [Outcome.isNoMatch] at hh
  · rcases ho with hh | ⟨e, hh⟩
    · have heq := hh.symm.trans h
      injection heq with h1 h2
      subst h1
      subst h2
      have hpm : (p', s') ∈ aggregate score hay tokens := maxBy_mem _ _ _ hmax
      have hmem : p' ∈ hay := hsub p' s' hpm
      refine ⟨hmem, ?_, hsub⟩
      obtain ⟨j, hj1, hj2⟩ := indexLookupFrom_mem p' hay hmem 0
      exact ⟨j, by simpa [indexLookup] using hj1, hj2⟩
    · exact Outcome.noConfusion (hh.symm.trans h)

theorem C9_winner_resolvable_witness :
    "ab" ∈ (["ab"] : List String)
    ∧ (∃ j, indexLookup ["ab"] "ab" = some j
        ∧ (["ab"] : List String).get? j = some "ab")
    ∧ ∀ q v, (q, v) ∈ aggregate (fun _ p => if p = "ab" then some 5 else none)
        ["ab"] ["t"] → q ∈ (["ab"] : List String) :=
  C9_winner_resolvable (fun _ p => if p = "ab" then some 5 else none)
    (fun _ => .ok ()) ["t"] ["ab"] "ab" 5 (by decide)

/-- The strict order in which the code's comparator ranks candidates:
`selLt a b` means the selector prefers `b` over `a` — `b` has the higher
score, or equal score and strictly fewer path bytes (Rust `str::len()`), or
equal score and byte length and the lexicographically larger path. -/
def selLt (a b : String × Nat) : Prop :=
  a.2 < b.2
    ∨ (a.2 = b.2
        ∧ (b.1.utf8ByteSize < a.1.utf8ByteSize
            ∨ (a.1.utf8ByteSize = b.1.utf8ByteSize ∧ a.1 < b.1)))

theorem cmpN_eq_lt_iff (a b : Nat) : cmpN a b = .lt ↔ a < b := by
  unfold cmpN
  by_cases h1 : a < b
  · simp [h1]
  · by_cases h2 : a = b <;> simp [h1, h2]

theorem cmpN_eq_eq_iff (a b : Nat) : cmpN a b = .eq ↔ a = b := by
  unfold cmpN
  by_cases h1 : a < b
  · simp [h1]
    omega
  · by_cases h2 : a = b <;> simp [h1, h2]

theorem cmpN_eq_gt_iff (a b : Nat) : cmpN a b = .gt ↔ b < a := by
  unfold cmpN
  by_cases h1 : a < b
  · rw [if_pos h1]
    exact ⟨fun h => Ordering.noConfusion h, fun h => absurd h1 (by omega)⟩
  · rw [if_neg h1]
    by_cases h2 : a = b
    · rw [if_pos h2]
      exact ⟨fun h => Ordering.noConfusion h, fun h => absurd h (by omega)⟩
    · rw [if_neg h2]
      exact ⟨fun _ => by omega, fun _ => rfl⟩

theorem cmpS_eq_lt_iff (a b : String) : cmpS a b = .lt ↔ a < b := by
  unfold cmpS
  by_cases h1 : a.data < b.data
  · rw [if_pos h1]
    exact ⟨fun _ => String.lt_iff_toList_lt.mpr h1, fun _ => rfl⟩
  · rw [if_neg h1]
    have hnb : ¬a < b := fun h => h1 (String.lt_iff_toList_lt.mp h)
    by_cases h2 : a = b
    · rw [if_pos h2]
      exact ⟨fun h => Ordering.noConfusion h, fun h => absurd h hnb⟩
    · rw [if_neg h2]
      exact ⟨fun h => Ordering.noConfusion h, fun h => absurd h hnb⟩

theorem cmpS_eq_eq_iff (a b : String) : cmpS a b = .eq ↔ a = b := by
  unfold cmpS
  by_cases h1 : a.data < b.data
  · rw [if_pos h1]
    refine ⟨fun h => Ordering.noConfusion h, fun h => ?_⟩
    subst h
    exact absurd h1 (lt_irrefl a.data)
  · rw [if_neg h1]
    by_cases h2 : a = b
    · rw [if_pos h2]
      exact ⟨fun _ => h2, fun _ => rfl⟩
    · rw [if_neg h2]
      exact ⟨fun h => Ordering.noConfusion h, fun h => absurd h h2⟩

theorem cmpS_eq_gt_iff (a b : String) : cmpS a b = .gt ↔ b < a := by
  unfold cmpS
  by_cases h1 : a.data < b.data
  · rw [if_pos h1]
    exact ⟨fun h => Ordering.noConfusion h,
      fun h => absurd (String.lt_iff_toList_lt.mp h) (lt_asymm h1)⟩
  · rw [if_neg h1]
    by_cases h2 : a = b
    · rw [if_pos h2]
      subst h2
      exact ⟨fun h => Ordering.noConfusion h,
        fun h => absurd (String.lt_iff_toList_lt.mp h) (lt_irrefl a.data)⟩
    · rw [if_neg h2]
      refine ⟨fun _ => ?_, fun _ => rfl⟩
      rcases lt_trichotomy a.data b.data with h | h | h
      · exact absurd h h1
      · exact absurd (String.toList_inj.mp h) h2
      · exact String.lt_iff_toList_lt.mpr h

theorem then_eq_lt (x y : Ordering) :
    x.then y = .lt ↔ x = .lt ∨ (x = .eq ∧ y = .lt) := by
  cases x <;> simp [Ordering.then]

theorem then_eq_eq (x y : Ordering) :
    x.then y = .eq ↔ x = .eq ∧ y = .eq := by
  cases x <;> simp [Ordering.then]

theorem then_eq_gt (x y : Ordering) :
    x.then y = .gt ↔ x = .gt ∨ (x = .eq ∧ y = .gt) := by
  cases x <;> simp [Ordering.then]

theorem selCmp_eq_lt_iff (a b : String × Nat) : selCmp a b = .lt ↔ selLt a b := by
  unfold selCmp selLt
  rw [then_eq_lt, then_eq_lt, then_eq_eq, cmpN_eq_lt_iff, cmpN_eq_eq_iff,
    cmpN_eq_lt_iff, cmpN_eq_eq_iff, cmpS_eq_lt_iff]
  constructor
  · rintro ((h | ⟨h1, h2⟩) | ⟨⟨h1, h2⟩, h3⟩)
    · exact Or.inl h
    · exact Or.inr ⟨h1, Or.inl h2⟩
    · exact Or.inr ⟨h1, Or.inr ⟨h2.symm, h3⟩⟩
  · rintro (h | ⟨h1, h2 | ⟨h2, h3⟩⟩)
    · exact Or.inl (Or.inl h)
    · exact Or.inl (Or.inr ⟨h1, h2⟩)
    · exact Or.inr ⟨⟨h1, h2.symm⟩, h3⟩

theorem selCmp_eq_eq_iff (a b : String × Nat) : selCmp a b = .eq ↔ a = b := by
  unfold selCmp
  rw [then_eq_eq, then_eq_eq, cmpN_eq_eq_iff, cmpN_eq_eq_iff, cmpS_eq_eq_iff]
  constructor
  · rintro ⟨⟨h1, -⟩, h3⟩
    exact Prod.ext h3 h1
  · rintro rfl
    exact ⟨⟨rfl, rfl⟩, rfl⟩

theorem selCmp_eq_gt_iff (a b : String × Nat) : selCmp a b = .gt ↔ selLt b a := by
  unfold selCmp selLt
  rw [then_eq_gt, then_eq_gt, then_eq_eq, cmpN_eq_gt_iff, cmpN_eq_eq_iff,
    cmpN_eq_gt_iff, cmpN_eq_eq_iff, cmpS_eq_gt_iff]
  constructor
  · rintro ((h | ⟨h1, h2⟩) | ⟨⟨h1, h2⟩, h3⟩)
    · exact Or.inl h
    · exact Or.inr ⟨h1.symm, Or.inl h2⟩
    · exact Or.inr ⟨h1.symm, Or.inr ⟨h2, h3⟩⟩
  · rintro (h | ⟨h1, h2 | ⟨h2, h3⟩⟩)
    · exact Or.inl (Or.inl h)
    · exact Or.inl (Or.inr ⟨h1.symm, h2⟩)
    · exact Or.inr ⟨⟨h1.symm, h2⟩, h3⟩

theorem selCmp_ne_gt (a b : String × Nat) :
    selCmp a b ≠ .gt ↔ a = b ∨ selLt a b := by
  constructor
  · intro hne
    cases h : selCmp a b with
    | lt => exact Or.inr ((selCmp_eq_lt_iff a b).mp h)
    | eq => exact Or.inl ((selCmp_eq_eq_iff a b).mp h)
    | gt => exact absurd h hne
  · rintro (rfl | hlt)
    · rw [(selCmp_eq_eq_iff a a).mpr rfl]
      simp
    · rw [(selCmp_eq_lt_iff a b).mpr hlt]
      simp

theorem selLt_trans {a b c : String × Nat} (h1 : selLt a b) (h2 : selLt b c) :
    selLt a c := by
  rcases h1 with h1 | ⟨e1, h1⟩ <;> rcases h2 with h2 | ⟨e2, h2⟩
  · exact Or.inl (by omega)
  · exact Or.inl (by omega)
  · exact Or.inl (by omega)
  · refine Or.inr ⟨by omega, ?_⟩
    rcases h1 with hl1 | ⟨hl1, hs1⟩ <;> rcases h2 with hl2 | ⟨hl2, hs2⟩
    · exact Or.inl (by omega)
    · exact Or.inl (by omega)
    · exact Or.inl (by omega)
    · exact Or.inr ⟨by omega, lt_trans hs1 hs2⟩

theorem foldl_sel_max (xs : List (String × Nat)) :
    ∀ acc,
      (∀ y ∈ xs,
        selCmp y (xs.foldl (fun a z => if selCmp a z = .gt then a else z) acc) ≠ .gt)
      ∧ selCmp acc (xs.foldl (fun a z => if selCmp a z = .gt then a else z) acc) ≠ .gt := by
  induction xs with
  | nil =>
      intro acc
      refine ⟨fun y hy => absurd hy (List.not_mem_nil y), ?_⟩
      rw [List.foldl_nil, (selCmp_eq_eq_iff acc acc).mpr rfl]
      simp
  | cons y ys ih =>
      intro acc
      rw [List.foldl_cons]
      by_cases hcmp : selCmp acc y = .gt
      · rw [if_pos hcmp]
        obtain ⟨hall, hacc⟩ := ih acc
        refine ⟨?_, hacc⟩
        intro z hz
        rcases List.mem_cons.mp hz with rfl | hz'
        · have h1 : selLt z acc := (selCmp_eq_gt_iff acc z).mp hcmp
          rcases (selCmp_ne_gt acc _).mp hacc with heq | hlt
          · rw [← heq, (selCmp_eq_lt_iff z acc).mpr h1]
            simp
          · rw [(selCmp_eq_lt_iff _ _).mpr (selLt_trans h1 hlt)]
            simp
        · exact hall z hz'
      · rw [if_neg hcmp]
        obtain ⟨hall, hy⟩ := ih y
        refine ⟨?_, ?_⟩
        · intro z hz
          rcases List.mem_cons.mp hz with rfl | hz'
          · exact hy
          · exact hall z hz'
        · rcases (selCmp_ne_gt acc y).mp hcmp with rfl | hlt
          · exact hy
          · rcases (selCmp_ne_gt y _).mp hy with heq | hlt2
            · rw [← heq, (selCmp_eq_lt_iff _ _).mpr hlt]
              simp
            · rw [(selCmp_eq_lt_iff _ _).mpr (selLt_trans hlt hlt2)]
              simp

/-- C1 (amended): for every non-empty cumulative score map the selector picks
the unique winner of the code's strict total order — higher aggregate score
first, then strictly fewer path bytes (Rust `str::len()`), then the
lexicographically larger (not smaller) path string. -/
theorem C1_selector_total_order (cum : List (String × Nat)) (hne : cum ≠ []) :
    ∃ w, maxBy selCmp cum = some w ∧ w ∈ cum
      ∧ ∀ x ∈ cum, x ≠ w → selLt x w := by
  cases cum with
  | nil => exact absurd rfl hne
  | cons x xs =>
      refine ⟨xs.foldl (fun a z => if selCmp a z = .gt then a else z) x, rfl, ?_, ?_⟩
      · rcases foldl_max_choice selCmp xs x with h | h
        · rw [h]
          exact List.mem_cons_self _ _
        · exact List.mem_cons_of_mem _ h
      · intro z hz hne2
        have hle : selCmp z (xs.foldl (fun a z => if selCmp a z = .gt then a else z) x) ≠ .gt := by
          rcases List.mem_cons.mp hz with rfl | hz'
          · exact (foldl_sel_max xs z).2
          · exact (foldl_sel_max xs x).1 z hz'
        rcases (selCmp_ne_gt z _).mp hle with heq | hlt
        · exact absurd heq hne2
        · exact hlt

theorem C1_selector_total_order_witness :
    ∃ w, maxBy selCmp [("a", 1), ("b", 1)] = some w ∧ w ∈ [("a", 1), ("b", 1)]
      ∧ ∀ x ∈ [("a", 1), ("b", 1)], x ≠ w → selLt x w :=
  C1_selector_total_order [("a", 1), ("b", 1)] (by decide)

/-- C1 counterexample: two candidates with equal aggregate score and equal
path length (equal both in bytes and in characters).  The claim requires the
lexicographically smaller path "a" to win, but the code's `max_by`
comparator selects the lexicographically larger path "b". -/
theorem C1_counterexample :
    ("a" : String).utf8ByteSize = ("b" : String).utf8ByteSize
    ∧ ("a" : String).length = ("b" : String).length
    ∧ ("a" : String) < "b"
    ∧ maxBy selCmp [("a", 1), ("b", 1)] = some ("b", 1)
    ∧ maxBy selCmp [("a", 1), ("b", 1)] ≠ some ("a", 1) := by
  refine ⟨rfl, rfl, String.lt_iff_toList_lt.mpr (by decide), by decide, by decide⟩

/-- C8 counterexample: with an empty token list and an empty candidate list
the program prints the usage message and returns before the candidate check,
so the claimed "nothing to match against" outcome is not produced for every
token list. -/
theorem C8_counterexample :
    runMain (fun _ _ => none) (fun _ => .ok ()) [] [] = Outcome.usage
    ∧ Outcome.usage ≠ Outcome.noCandidates :=
  ⟨rfl, by decide⟩

/-- C8 (amended): for every non-empty token list, an empty candidate list
short-circuits the run with the informational no-candidates outcome, a
success exit, no stager invocation, and without consulting the matcher or
the stager at all. -/
theorem C8_empty_candidates (score score2 : ScoreFn)
    (stager stager2 : String → Except StageError Unit) (tokens : List String)
    (htok : tokens ≠ []) :
    runMainC score stager tokens [] = (Outcome.noCandidates, [])
    ∧ Outcome.noCandidates.isError = false
    ∧ runMainC score2 stager2 tokens [] = runMainC score stager tokens [] := by
  cases tokens with
  | nil => exact absurd rfl htok
  | cons t ts =>
      have h1 : runMainC score stager (t :: ts) [] = (Outcome.noCandidates, []) := by
        simp [runMainC]
      have h2 : runMainC score2 stager2 (t :: ts) [] = (Outcome.noCandidates, []) := by
        simp [runMainC]
      exact ⟨h1, rfl, h2.trans h1.symm⟩

theorem C8_empty_candidates_witness :
    runMainC (fun _ _ => some 1) (fun _ => .ok ()) ["q"] [] =
      (Outcome.noCandidates, [])
    ∧ Outcome.noCandidates.isError = false
    ∧ runMainC (fun _ _ => none) (fun _ => .error .writeFailed) ["q"] [] =
        runMainC (fun _ _ => some 1) (fun _ => .ok ()) ["q"] [] :=
  C8_empty_candidates (fun _ _ => some 1) (fun _ _ => none) (fun _ => .ok ())
    (fun _ => .error .writeFailed) ["q"] (by decide)

/-- C7: the staging collaborator rejects an absolute path outside the
repository root with the path-outside error before the index write, strips
inside-root absolute paths and keeps root-relative paths, adds them and
writes the index, and any add failure aborts before the index write. -/
theorem C7_stage_paths (repoPath : RsPath) (addOk : RsPath → Bool)
    (writeOk : Bool) (p : RsPath) (ps paths : List RsPath) :
    (isAbsolute p = true → stripPrefixRs repoPath p = none →
      stage_paths_libgit2 repoPath addOk writeOk (p :: ps) =
        (.error .pathOutside, false))
    ∧ (isAbsolute p = true → ∀ r, stripPrefixRs repoPath p = some r →
        addOk r = true → writeOk = true →
        stage_paths_libgit2 repoPath addOk writeOk [p] = (.ok [r], true))
    ∧ (isAbsolute p = false → addOk p = true → writeOk = true →
        stage_paths_libgit2 repoPath addOk writeOk [p] = (.ok [p], true))
    ∧ (∀ e, (stage_paths_libgit2 repoPath addOk writeOk paths).1 = .error e →
        e ≠ StageError.writeFailed →
        (stage_paths_libgit2 repoPath addOk writeOk paths).2 = false) := by
  refine ⟨?_, ?_, ?_, ?_⟩
  · intro habs hstrip
    have hrel : relOf repoPath p = .error .pathOutside := by
      simp [relOf, habs, hstrip]
    have hadd : addAll repoPath addOk (p :: ps) = .error .pathOutside := by
      simp [addAll, hrel]
    simp [stage_paths_libgit2, hadd]
  · intro habs r hstrip hadd hw
    have hrel : relOf repoPath p = .ok r := by
      simp [relOf, habs, hstrip]
    have hall : addAll repoPath addOk [p] = .ok [r] := by
      simp [addAll, hrel, hadd, Except.map]
    simp [stage_paths_libgit2, hall, hw]
  · intro habs hadd hw
    have hrel : relOf repoPath p = .ok p := by
      simp [relOf, habs]
    have hall : addAll repoPath addOk [p] = .ok [p] := by
      simp [addAll, hrel, hadd, Except.map]
    simp [stage_paths_libgit2, hall, hw]
  · intro e herr hne
    unfold stage_paths_libgit2 at herr ⊢
    cases ha : addAll repoPath addOk paths with
    | error e2 => simp [ha]
    | ok rels =>
        rw [ha] at herr
        by_cases hw : writeOk
        · simp [hw] at herr
        · simp [hw] at herr
          exact absurd herr.symm hne

theorem C7_stage_paths_witness :
    (isAbsolute [Component.rootDir, Component.normal "etc", Component.normal "x"] = true →
      stripPrefixRs [Component.rootDir, Component.normal "repo"]
        [Component.rootDir, Component.normal "etc", Component.normal "x"] = none →
      stage_paths_libgit2 [Component.rootDir, Component.normal "repo"]
        (fun _ => true) true
        [[Component.rootDir, Component.normal "etc", Component.normal "x"]] =
        (.error .pathOutside, false))
    ∧ (isAbsolute [Component.rootDir, Component.normal "etc", Component.normal "x"] = true →
        ∀ r, stripPrefixRs [Component.rootDir, Component.normal "repo"]
          [Component.rootDir, Component.normal "etc", Component.normal "x"] = some r →
        (fun (_ : RsPath) => true) r = true → true = true →
        stage_paths_libgit2 [Component.rootDir, Component.normal "repo"]
          (fun _ => true) true
          [[Component.rootDir, Component.normal "etc", Component.normal "x"]] =
          (.ok [r], true))
    ∧ (isAbsolute [Component.rootDir, Component.normal "etc", Component.normal "x"] = false →
        (fun (_ : RsPath) => true)
          [Component.rootDir, Component.normal "etc", Component.normal "x"] = true →
        true = true →
        stage_paths_libgit2 [Component.rootDir, Component.normal "repo"]
          (fun _ => true) true
          [[Component.rootDir, Component.normal "etc", Component.normal "x"]] =
          (.ok [[Component.rootDir, Component.normal "etc", Component.normal "x"]], true))
    ∧ (∀ e, (stage_paths_libgit2 [Component.rootDir, Component.normal "repo"]
          (fun _ => true) true
          [[Component.rootDir, Component.normal "etc", Component.normal "x"]]).1 =
            .error e →
        e ≠ StageError.writeFailed →
        (stage_paths_libgit2 [Component.rootDir, Component.normal "repo"]
          (fun _ => true) true
          [[Component.rootDir, Component.normal "etc", Component.normal "x"]]).2 =
            false) :=
  C7_stage_paths [Component.rootDir, Component.normal "repo"] (fun _ => true)
    true [Component.rootDir, Component.normal "etc", Component.normal "x"] []
    [[Component.rootDir, Component.normal "etc", Component.normal "x"]]

/-- C10: every candidate produced by the working-tree enumeration carries
`FileMode::Regular` no matter what the entry's on-disk mode is, and entries
whose status path cannot be represented are silently dropped. -/
theorem C10_collect_modes (entries : List StatusEntry) :
    (∀ fe ∈ collect_unstaged_and_untracked entries, fe.mode = FileMode.regular)
    ∧ (∀ f : StatusEntry → FileMode,
        collect_unstaged_and_untracked
          (entries.map (fun e => { e with diskMode := f e })) =
          collect_unstaged_and_untracked entries)
    ∧ ∀ st m rest,
        collect_unstaged_and_untracked
          ({ status := st, path := none, diskMode := m } :: rest) =
          collect_unstaged_and_untracked rest := by
  refine ⟨?_, ?_, ?_⟩
  · intro fe hfe
    obtain ⟨e, -, hor⟩ := List.mem_filterMap.mp hfe
    by_cases hc : e.status.any (fun f => decide (f ∈ wtFlags))
    · rw [if_pos hc] at hor
      cases hp : e.path with
      | none =>
          rw [hp] at hor
          cases hor
      | some p =>
          rw [hp] at hor
          have hfe2 := Option.some_inj.mp hor
          rw [← hfe2]
    · rw [if_neg hc] at hor
      cases hor
  · intro f
    unfold collect_unstaged_and_untracked
    rw [List.filterMap_map]
    rfl
  · intro st m rest
    unfold collect_unstaged_and_untracked
    rw [List.filterMap_cons]
    by_cases hc : st.any (fun f => decide (f ∈ wtFlags))
    · simp [hc]
    · simp [hc]

theorem C10_collect_modes_witness :
    (∀ fe ∈ collect_unstaged_and_untracked
        [{ status := [.wtNew], path := some "a", diskMode := .executable }],
      fe.mode = FileMode.regular)
    ∧ (∀ f : StatusEntry → FileMode,
        collect_unstaged_and_untracked
          (([{ status := [.wtNew], path := some "a", diskMode := .executable }] :
              List StatusEntry).map (fun e => { e with diskMode := f e })) =
          collect_unstaged_and_untracked
            [{ status := [.wtNew], path := some "a", diskMode := .executable }])
    ∧ ∀ st m rest,
        collect_unstaged_and_untracked
          ({ status := st, path := none, diskMode := m } :: rest) =
          collect_unstaged_and_untracked rest :=
  C10_collect_modes
    [{ status := [.wtNew], path := some "a", diskMode := .executable }]

/-- C3 (spec-modelled glob branch): a token containing a glob wildcard is
compiled as a full-path shell-style glob; every candidate whose full path
matches receives exactly score 1, non-matching candidates are absent from the
map, and a malformed pattern yields the empty map rather than a hard
error. -/
theorem C3_glob_token (fuzzy : ScoreFn) (tok : String) (hay : List String)
    (hw : hasWildcard tok = true) :
    match_token fuzzy tok hay = matchTokenGlob tok hay
    ∧ (∀ P, parseGlob tok = some P →
        ∀ p s, ((p, s) ∈ match_token fuzzy tok hay
          ↔ p ∈ hay ∧ globMatch P p.data = true ∧ s = 1))
    ∧ (parseGlob tok = none → match_token fuzzy tok hay = []) := by
  have h1 : match_token fuzzy tok hay = matchTokenGlob tok hay := by
    simp [match_token, hw]
  refine ⟨h1, ?_, ?_⟩
  · intro P hP p s
    rw [h1]
    unfold matchTokenGlob
    rw [hP, List.mem_filterMap]
    constructor
    · rintro ⟨q, hq, hif⟩
      by_cases hg : globMatch P q.data
      · rw [if_pos hg] at hif
        injection hif with h4
        injection h4 with h5 h6
        subst h5
        subst h6
        exact ⟨hq, hg, rfl⟩
      · rw [if_neg hg] at hif
        cases hif
    · rintro ⟨hp, hg, rfl⟩
      exact ⟨p, hp, by rw [if_pos hg]⟩
  · intro hP
    rw [h1]
    unfold matchTokenGlob
    rw [hP]

theorem C3_glob_token_witness :
    match_token (fun _ _ => none) "*.md" ["a.md", "b.txt"] =
      matchTokenGlob "*.md" ["a.md", "b.txt"]
    ∧ (∀ P, parseGlob "*.md" = some P →
        ∀ p s, ((p, s) ∈ match_token (fun _ _ => none) "*.md" ["a.md", "b.txt"]
          ↔ p ∈ (["a.md", "b.txt"] : List String)
            ∧ globMatch P p.data = true ∧ s = 1))
    ∧ (parseGlob "*.md" = none →
        match_token (fun _ _ => none) "*.md" ["a.md", "b.txt"] = []) :=
  C3_glob_token (fun _ _ => none) "*.md" ["a.md", "b.txt"] (by decide)
